import Mathlib

/-!
Verification of the Schönhage–Strassen multiplication core
(`src/integer_multiplication/SchonhageStrassen.js`).

The file shallowly embeds the three functions of the source file —
`multiply_integer_SchonhageStrassen`, `multiply_integer_SchonhageStrassen_ring`
and `ring_for_size` — over explicit state passing.  Arbitrary-precision
integers (the `BigInt` collaborator) are embedded as `ℤ`; the collaborator
operations that the core merely calls (`FermatRing` attributes,
`canonicalize`, `splitIntoNPiecesOfSize`, `shiftSum`, the Karatsuba base-case
multiplier, the number-theoretic transform) are kept as parameters of an
environment structure, so every theorem below holds for arbitrary
collaborator implementations unless a definition explicitly says it is
modelled from the spec.  JavaScript 32-bit bitwise semantics are made
explicit with `% 2 ^ 32` where they matter.  The recursion of the engine is
embedded with an explicit fuel argument; running out of fuel yields `none`,
a raised `NoSuitableRing` error is an `Except.error` carrying the requested
bit size.
-/

/-- Modelled from the spec: the bit-length utility `ceil_lg2` of
`src/util/util.js` (not under `src/`) is described as the pure integer
function `⌈log2 n⌉`.  The fuel argument makes the definition structurally
recursive; `ceil_lg2` below instantiates the fuel with `n` itself, which is
always sufficient. -/
def ceil_lg2_aux : ℕ → ℕ → ℕ
  | 0, _ => 0
  | fuel + 1, n => if n ≤ 1 then 0 else ceil_lg2_aux fuel ((n + 1) / 2) + 1

/-- Modelled from the spec: `ceil_lg2 n = ⌈log2 n⌉` (with `ceil_lg2 0 = ceil_lg2 1 = 0`). -/
def ceil_lg2 (n : ℕ) : ℕ := ceil_lg2_aux n n

/-- Low 32 bits of the JavaScript int32 value `(1 << k) - 1`: JavaScript
shift counts are taken mod 32, and the subtraction is carried out on the
(possibly negative) numeric value before `&` coerces it back to 32 bits. -/
def jsMask (k : ℕ) : ℕ := (2 ^ (k % 32) + 2 ^ 32 - 1) % 2 ^ 32

/-- The evenness test of `ring_for_size` exactly as the source computes it:
`(bit_size & ((1 << (s+2)) - 1)) == 0`, with JavaScript 32-bit bitwise
semantics (both operands of `&` are coerced to their low 32 bits). -/
def jsEven (bit_size s : ℕ) : Bool :=
  decide ((bit_size % 2 ^ 32) &&& jsMask (s + 2) = 0)

/-- The square-root-of-2 eligibility check of `ring_for_size` exactly as the
source computes it: `s >= 3 || (s === 2 && (p & 0) === 0)`. -/
def canDoSqrt2 (s p : ℕ) : Bool :=
  decide (3 ≤ s) || (decide (s = 2) && decide (p &&& 0 = 0))

/-- Ceiling division, the value of JavaScript `Math.ceil(a / b)` for
natural `a` and positive natural `b`. -/
def ceil_div (a b : ℕ) : ℕ := (a + b - 1) / b

/-- A `FermatRing` descriptor as the core sees it: the two small integers
passed to the constructor.  All derived attributes (`bit_capacity`,
`principal_root_order`, `principal_root_exponent`) live in `FermatRing.js`,
which is not part of the core, and are therefore supplied as separate
functions of these two constructor arguments. -/
structure FermatRingD where
  s : ℕ
  p : ℕ
  deriving DecidableEq, Repr

/-- The descending list `[m, m-1, ..., 1]` of shift parameters tried by
`ring_for_size` (`for (let s = m; s > 0; s--)`). -/
def sDesc (m : ℕ) : List ℕ := (List.range m).map (fun i => m - i)

/-- The ascending list `[max(2,s), ..., 4*s]` of secondary parameters tried
by `ring_for_size` (`for (let p = Math.max(2, s); p <= 4*s; p++)`). -/
def pAsc (s : ℕ) : List ℕ := (List.range (4 * s + 1 - max 2 s)).map (fun j => max 2 s + j)

/-- The full `(s, p)` sweep of `ring_for_size`, in iteration order. -/
def sweep (m : ℕ) : List (ℕ × ℕ) := (sDesc m).flatMap (fun s => (pAsc s).map (fun p => (s, p)))

/-- The conjunction of the four candidate gates of `ring_for_size`
(`isSmaller && isEven && hasRoom && canDoSqrt2`), for the candidate ring
`new FermatRing(s, p - 1)`, parametrised by the `FermatRing` attribute
functions `bcF` (bit_capacity) and `NF` (principal_root_order). -/
def candOK (bcF NF : ℕ → ℕ → ℕ) (bit_size s p : ℕ) : Bool :=
  decide (bcF s (p - 1) < bit_size) && jsEven bit_size s &&
    decide (ceil_div bit_size (NF s (p - 1)) * 2 + s + 1 ≤ bcF s (p - 1)) &&
    canDoSqrt2 s p

/-- The `isBetter` gate of `ring_for_size`:
`best === undefined || best.r.bit_capacity > r.bit_capacity`. -/
def isBetterB (bcF : ℕ → ℕ → ℕ) (best : Option FermatRingD) (sp : ℕ × ℕ) : Bool :=
  match best with
  | none => true
  | some b => decide (bcF sp.1 (sp.2 - 1) < bcF b.s b.p)

/-- One iteration of the body of the double loop of `ring_for_size`:
replace `best` when all five gates pass. -/
def selStep (bcF NF : ℕ → ℕ → ℕ) (bit_size : ℕ) (best : Option FermatRingD) (sp : ℕ × ℕ) :
    Option FermatRingD :=
  if candOK bcF NF bit_size sp.1 sp.2 && isBetterB bcF best sp then some ⟨sp.1, sp.2 - 1⟩
  else best

/-- Embedding of `ring_for_size` (lines 77–97 of the source): sweep the
`(s, p)` grid keeping a running best, return the best ring, or raise
`NoSuitableRing` — an `Except.error` carrying the requested `bit_size` —
when no candidate passed all gates. -/
def ring_for_size (bcF NF : ℕ → ℕ → ℕ) (bit_size : ℕ) : Except ℕ FermatRingD :=
  match (sweep (ceil_lg2 bit_size)).foldl (selStep bcF NF bit_size) none with
  | some r => Except.ok r
  | none => Except.error bit_size

/-- The four structural predicates on a candidate `(s, p)` as the spec
states them, with the evenness gate in its divisibility form
`2 ^ (s+2) ∣ bit_size`. -/
def ValidCand (bcF NF : ℕ → ℕ → ℕ) (bit_size s p : ℕ) : Prop :=
  bcF s (p - 1) < bit_size ∧ 2 ^ (s + 2) ∣ bit_size ∧
    ceil_div bit_size (NF s (p - 1)) * 2 + s + 1 ≤ bcF s (p - 1) ∧
    (3 ≤ s ∨ (s = 2 ∧ p &&& 0 = 0))

/-- Result type of the embedded engine: `none` models running out of fuel
(a model artifact), `Except.error n` models a thrown `NoSuitableRing(n)`,
`Except.ok v` a normal return. -/
def Res (α : Type) : Type := Option (Except ℕ α)

/-- Sequencing on `Res`: fuel exhaustion and raised errors short-circuit,
exactly as a thrown JavaScript exception propagates. -/
def rbind {α β : Type} : Res α → (α → Res β) → Res β
  | none, _ => none
  | some (Except.error e), _ => some (Except.error e)
  | some (Except.ok a), f => f a

/-- Mapping a pure function over a `Res`, preserving fuel exhaustion and
errors. -/
def rmap {α β : Type} (f : α → β) : Res α → Res β
  | none => none
  | some (Except.error e) => some (Except.error e)
  | some (Except.ok a) => some (Except.ok (f a))

/-- Monadic zip of two piece sequences with a fallible pointwise function,
propagating fuel exhaustion and errors left to right. -/
def zipWithRes (f : ℤ → ℤ → Res ℤ) : List ℤ → List ℤ → Res (List ℤ)
  | [], _ => some (Except.ok [])
  | _ :: _, [] => some (Except.ok [])
  | x :: xs, y :: ys => rbind (f x y) fun z => rmap (fun zs => z :: zs) (zipWithRes f xs ys)

/-- The collaborator environment: every operation the core calls but does
not itself define.  `bcF`, `NF`, `EF` give a `FermatRing`'s `bit_capacity`,
`principal_root_order` and `principal_root_exponent` from its two
constructor arguments; `canonicalizeF` and `divisorF` are the ring methods
of the same names; `karatsubaF` is the base-case multiplier; `sizeF`,
`isNegativeOneF`, `splitF`, `shiftSumF` are the `BigInt` operations; `nttF`
and `inttF` are the forward and inverse transforms used by the convolution
collaborator. -/
structure Env where
  bcF : ℕ → ℕ → ℕ
  NF : ℕ → ℕ → ℕ
  EF : ℕ → ℕ → ℕ
  canonicalizeF : ℕ → ℕ → ℤ → ℤ
  karatsubaF : ℤ → ℤ → ℤ
  sizeF : ℤ → ℕ
  isNegativeOneF : ℤ → Bool
  splitF : ℤ → ℕ → ℕ → List ℤ
  shiftSumF : List ℤ → ℕ → ℤ
  divisorF : ℕ → ℕ → ℤ
  nttF : ℕ → ℕ → List ℤ → List ℤ
  inttF : ℕ → ℕ → List ℤ → List ℤ

/-- Modelled from the spec: the convolution collaborator
(`FermatRing.negacyclic_convolution`, not under `src/`) transforms both
piece sequences with the ring's transform, invokes the pointwise multiplier
once per pair of transformed coefficients, and inverse-transforms the
results; the transforms themselves stay abstract (`nttF`, `inttF`). -/
def negacyclic_convolution (env : Env) (s p : ℕ) (piecesA piecesB : List ℤ)
    (f : ℤ → ℤ → Res ℤ) : Res (List ℤ) :=
  rmap (env.inttF s p) (zipWithRes f (env.nttF s p piecesA) (env.nttF s p piecesB))

/-- Embedding of `multiply_integer_SchonhageStrassen_ring` (lines 36–69 of
the source): canonicalize both operands, fall back to Karatsuba on the
base-case band `(bit_capacity ≠ 16 ∧ bit_capacity < 32) ∨ bit_capacity = 40`,
special-case the ring's `-1` representative, otherwise split into pieces
sized by the inner ring returned by `ring_for_size`, convolve with the
recursive pointwise multiplier, correct convolution outputs whose bit size
equals the inner capacity by subtracting the inner divisor, recombine with
`shiftSum`, and canonicalize. -/
def multiply_integer_SchonhageStrassen_ring (env : Env) :
    ℕ → ℤ → ℤ → FermatRingD → Res ℤ
  | 0, _, _, _ => none
  | fuel + 1, a0, b0, ring =>
    let bc := env.bcF ring.s ring.p
    let a := env.canonicalizeF ring.s ring.p a0
    let b := env.canonicalizeF ring.s ring.p b0
    if (bc ≠ 16 ∧ bc < 32) ∨ bc = 40 then
      some (Except.ok (env.canonicalizeF ring.s ring.p (env.karatsubaF a b)))
    else if env.isNegativeOneF a then
      some (Except.ok (env.canonicalizeF ring.s ring.p (-b)))
    else if env.isNegativeOneF b then
      some (Except.ok (env.canonicalizeF ring.s ring.p (-a)))
    else
      match ring_for_size env.bcF env.NF bc with
      | Except.error n => some (Except.error n)
      | Except.ok inner_ring =>
        let piece_count := env.NF inner_ring.s inner_ring.p
        let bits_per_piece := bc >>> (env.EF inner_ring.s inner_ring.p + 1)
        let piecesA := env.splitF a piece_count bits_per_piece
        let piecesB := env.splitF b piece_count bits_per_piece
        rbind (negacyclic_convolution env inner_ring.s inner_ring.p piecesA piecesB
            (fun x y => multiply_integer_SchonhageStrassen_ring env fuel x y inner_ring))
          (fun piecesC =>
            let d := env.divisorF inner_ring.s inner_ring.p
            let piecesD := piecesC.map (fun e =>
              if env.sizeF e = env.bcF inner_ring.s inner_ring.p then e - d else e)
            let combined := env.shiftSumF piecesD bits_per_piece
            some (Except.ok (env.canonicalizeF ring.s ring.p combined)))

/-- The nonnegative core of the entry normalizer (lines 22–24 of the
source): compute `n = max(a.size(), b.size()) * 2` and delegate to the
engine with the ring `new FermatRing(ceil_lg2(n), 1)`. -/
def multiply_integer_SchonhageStrassen_nonneg (env : Env) (fuel : ℕ) (a b : ℤ) : Res ℤ :=
  let n := max (env.sizeF a) (env.sizeF b) * 2
  multiply_integer_SchonhageStrassen_ring env fuel a b ⟨ceil_lg2 n, 1⟩

/-- Second sign-stripping stage of the entry normalizer: at this point `a`
is already nonnegative, so the self-call of the source on `(a, -b)` reaches
the nonnegative core directly. -/
def multiply_integer_SchonhageStrassen_posA (env : Env) (fuel : ℕ) (a b : ℤ) : Res ℤ :=
  if b < 0 then rmap Neg.neg (multiply_integer_SchonhageStrassen_nonneg env fuel a (-b))
  else multiply_integer_SchonhageStrassen_nonneg env fuel a b

/-- Embedding of the public entry point `multiply_integer_SchonhageStrassen`
(lines 13–25 of the source): strip the sign of `a`, then of `b`, negating
the result once per stripped sign (`.negate()` never runs when the inner
call raises, so errors propagate unchanged through `rmap`). -/
def multiply_integer_SchonhageStrassen (env : Env) (fuel : ℕ) (a b : ℤ) : Res ℤ :=
  if a < 0 then rmap Neg.neg (multiply_integer_SchonhageStrassen_posA env fuel (-a) b)
  else multiply_integer_SchonhageStrassen_posA env fuel a b

/-- Modelled from the spec: `FermatRing.js` is not under `src/`; §4.1 of the
spec states that the ring built by the entry normalizer has
`bit_capacity = ceil(log2(n))` — its first constructor argument — and
root-order parameter `1`, its second. -/
def entry_ring_bit_capacity (s p : ℕ) : ℕ := s

/-- Modelled from the spec: `FermatRing.js` is not under `src/`.
`principal_root_order` is the convolution length, i.e. the number of pieces
an operand is split into; the spec's exact-splitting invariant (§3) together
with `bits_per_piece = bit_capacity >> (principal_root_exponent + 1)` (§4.3)
forces `principal_root_order = 2 ^ (principal_root_exponent + 1)`, with
`principal_root_exponent` equal to the first constructor argument `s`
matching the evenness gate `2 ^ (s+2) ∣ bit_size` of the selector. -/
def principal_root_order_spec (s p : ℕ) : ℕ := 2 ^ (s + 1)

/-- Modelled from the spec: `principal_root_exponent` of a `FermatRing` is
its first constructor argument; see `principal_root_order_spec`. -/
def principal_root_exponent_spec (s p : ℕ) : ℕ := s

/-- Concrete bit-capacity function used by witnesses: `bcW s p = p * 2 ^ s`,
one representative choice of `FermatRing` attribute (witnesses only need
some concrete instantiation of the parametric theorems). -/
def bcW (s p : ℕ) : ℕ := p * 2 ^ s

/-- Concrete collaborator environment used by witnesses: identity
canonicalization, exact base-case multiplier, identity transforms, trivial
`BigInt` accessors. -/
def envW : Env :=
  ⟨bcW, principal_root_order_spec, principal_root_exponent_spec,
    fun _ _ x => x, fun a b => a * b, fun _ => 0, fun _ => false,
    fun _ _ _ => [], fun _ _ => 0, fun _ _ => 0, fun _ _ l => l, fun _ _ l => l⟩

/-- Witness environment whose every ring has bit capacity `33`, so that the
engine's call to `ring_for_size` raises `NoSuitableRing(33)` (no `s ≥ 1` has
`2 ^ (s+2) ∣ 33`). -/
def envW33 : Env :=
  ⟨fun _ _ => 33, principal_root_order_spec, principal_root_exponent_spec,
    fun _ _ x => x, fun a b => a * b, fun _ => 0, fun _ => false,
    fun _ _ _ => [], fun _ _ => 0, fun _ _ => 0, fun _ _ l => l, fun _ _ l => l⟩

theorem ceil_lg2_aux_le : ∀ (fuel n k : ℕ), n ≤ 2 ^ k → ceil_lg2_aux fuel n ≤ k := by
  intro fuel
  induction fuel with
  | zero => intro n k _; simp [ceil_lg2_aux]
  | succ f ih =>
    intro n k h
    simp only [ceil_lg2_aux]
    split
    · exact Nat.zero_le k
    · rename_i hn
      have hk : 1 ≤ k := by
        by_contra hk
        have hk0 : k = 0 := by omega
        subst hk0
        simp at h
        omega
      have hm : 2 ^ (k - 1) * 2 = 2 ^ k := by
        rw [← pow_succ]
        congr 1
        omega
      have h2 : (n + 1) / 2 ≤ 2 ^ (k - 1) := by omega
      have := ih ((n + 1) / 2) (k - 1) h2
      omega

theorem ceil_lg2_le (n k : ℕ) (h : n ≤ 2 ^ k) : ceil_lg2 n ≤ k :=
  ceil_lg2_aux_le n n k h

theorem jsEven_iff (bs s : ℕ) (h1 : bs < 2 ^ 32) (h2 : s + 2 ≤ 31) :
    jsEven bs s = true ↔ 2 ^ (s + 2) ∣ bs := by
  have hmask : jsMask (s + 2) = 2 ^ (s + 2) - 1 := by
    unfold jsMask
    rw [Nat.mod_eq_of_lt (show s + 2 < 32 by omega)]
    have hle : 2 ^ (s + 2) ≤ 2 ^ 31 := Nat.pow_le_pow_right (by norm_num) h2
    have h31 : (2 : ℕ) ^ 31 < 2 ^ 32 := by norm_num
    have hpos : 1 ≤ 2 ^ (s + 2) := Nat.one_le_two_pow
    have hsplit : 2 ^ (s + 2) + 2 ^ 32 - 1 = 2 ^ 32 + (2 ^ (s + 2) - 1) := by omega
    rw [hsplit, Nat.add_mod_left, Nat.mod_eq_of_lt (by omega)]
  unfold jsEven
  rw [hmask, Nat.mod_eq_of_lt h1, Nat.and_pow_two_sub_one_eq_mod]
  simp only [decide_eq_true_eq]
  exact Nat.dvd_iff_mod_eq_zero.symm

theorem mem_sweep (m s p : ℕ) :
    (s, p) ∈ sweep m ↔ 1 ≤ s ∧ s ≤ m ∧ max 2 s ≤ p ∧ p ≤ 4 * s := by
  simp only [sweep, sDesc, pAsc, List.mem_flatMap, List.mem_map, List.mem_range,
    Prod.mk.injEq]
  constructor
  · rintro ⟨x, ⟨i, hi, rfl⟩, q, ⟨⟨j, hj, rfl⟩, hs, hp⟩⟩
    subst hs
    subst hp
    omega
  · rintro ⟨h1, h2, h3, h4⟩
    exact ⟨s, ⟨m - s, by omega, by omega⟩, p, ⟨⟨p - max 2 s, by omega, by omega⟩, rfl, rfl⟩⟩

theorem candOK_iff_valid (bcF NF : ℕ → ℕ → ℕ) (bs s p : ℕ) (h32 : bs < 2 ^ 32)
    (hs : s + 2 ≤ 31) :
    candOK bcF NF bs s p = true ↔ ValidCand bcF NF bs s p := by
  unfold candOK ValidCand canDoSqrt2
  simp only [Bool.and_eq_true, Bool.or_eq_true, decide_eq_true_eq]
  rw [jsEven_iff bs s h32 hs]
  tauto

theorem selFold_id (bcF NF : ℕ → ℕ → ℕ) (bs : ℕ) :
    ∀ (l : List (ℕ × ℕ)) (acc : Option FermatRingD),
      (∀ sp ∈ l, candOK bcF NF bs sp.1 sp.2 = false) →
      l.foldl (selStep bcF NF bs) acc = acc := by
  intro l
  induction l with
  | nil => intro acc _; rfl
  | cons x xs ih =>
    intro acc hall
    rw [List.foldl_cons]
    have hx : candOK bcF NF bs x.1 x.2 = false := hall x (List.mem_cons_self x xs)
    have hstep : selStep bcF NF bs acc x = acc := by
      unfold selStep
      rw [hx, Bool.false_and, if_neg (by simp)]
    rw [hstep]
    exact ih acc (fun sp hsp => hall sp (List.mem_cons_of_mem x hsp))

theorem selFold_none (bcF NF : ℕ → ℕ → ℕ) (bs : ℕ) :
    ∀ (l : List (ℕ × ℕ)) (acc : Option FermatRingD),
      l.foldl (selStep bcF NF bs) acc = none →
      acc = none ∧ ∀ sp ∈ l, candOK bcF NF bs sp.1 sp.2 = false := by
  intro l
  induction l with
  | nil =>
    intro acc h
    simp only [List.foldl_nil] at h
    exact ⟨h, by simp⟩
  | cons x xs ih =>
    intro acc h
    rw [List.foldl_cons] at h
    obtain ⟨hstep, hxs⟩ := ih _ h
    unfold selStep at hstep
    split at hstep
    · exact absurd hstep (by simp)
    · rename_i hcond
      refine ⟨hstep, ?_⟩
      intro sp hsp
      rcases List.mem_cons.mp hsp with hsp | hsp
      · subst hsp
        subst hstep
        cases hc : candOK bcF NF bs sp.1 sp.2
        · rfl
        · exact absurd (by rw [hc]; rfl) hcond
      · exact hxs sp hsp


theorem isBetterB_none (bcF : ℕ → ℕ → ℕ) (sp : ℕ × ℕ) : isBetterB bcF none sp = true := rfl

theorem selStep_pos (bcF NF : ℕ → ℕ → ℕ) (bs : ℕ) (acc : Option FermatRingD) (sp : ℕ × ℕ)
    (hc : (candOK bcF NF bs sp.1 sp.2 && isBetterB bcF acc sp) = true) :
    selStep bcF NF bs acc sp = some ⟨sp.1, sp.2 - 1⟩ := by
  unfold selStep
  rw [if_pos hc]

theorem selStep_neg (bcF NF : ℕ → ℕ → ℕ) (bs : ℕ) (acc : Option FermatRingD) (sp : ℕ × ℕ)
    (hc : ¬ (candOK bcF NF bs sp.1 sp.2 && isBetterB bcF acc sp) = true) :
    selStep bcF NF bs acc sp = acc := by
  unfold selStep
  rw [if_neg hc]

theorem notBetter_le (bcF : ℕ → ℕ → ℕ) (b : FermatRingD) (sp : ℕ × ℕ)
    (hc : ¬ isBetterB bcF (some b) sp = true) : bcF b.s b.p ≤ bcF sp.1 (sp.2 - 1) := by
  unfold isBetterB at hc
  simp only [decide_eq_true_eq] at hc
  omega

theorem better_lt (bcF : ℕ → ℕ → ℕ) (b : FermatRingD) (sp : ℕ × ℕ)
    (hc : isBetterB bcF (some b) sp = true) : bcF sp.1 (sp.2 - 1) < bcF b.s b.p := by
  unfold isBetterB at hc
  simpa only [decide_eq_true_eq] using hc

theorem selFold_min (bcF NF : ℕ → ℕ → ℕ) (bs : ℕ) :
    ∀ (l : List (ℕ × ℕ)) (acc : Option FermatRingD) (r : FermatRingD),
      l.foldl (selStep bcF NF bs) acc = some r →
      (∀ sp ∈ l, candOK bcF NF bs sp.1 sp.2 = true → bcF r.s r.p ≤ bcF sp.1 (sp.2 - 1)) ∧
      (∀ r0 : FermatRingD, acc = some r0 → bcF r.s r.p ≤ bcF r0.s r0.p) := by
  intro l
  induction l with
  | nil =>
    intro acc r h
    simp only [List.foldl_nil] at h
    subst h
    exact ⟨by simp, fun r0 h0 => by cases h0; exact le_refl _⟩
  | cons x xs ih =>
    intro acc r h
    rw [List.foldl_cons] at h
    obtain ⟨hxs, hacc⟩ := ih _ r h
    by_cases hc : (candOK bcF NF bs x.1 x.2 && isBetterB bcF acc x) = true
    · have hrx : bcF r.s r.p ≤ bcF x.1 (x.2 - 1) := hacc _ (selStep_pos bcF NF bs acc x hc)
      refine ⟨?_, ?_⟩
      · intro sp hsp hcand
        rcases List.mem_cons.mp hsp with hsp | hsp
        · subst hsp; exact hrx
        · exact hxs sp hsp hcand
      · intro r0 h0
        subst h0
        rw [Bool.and_eq_true] at hc
        exact le_trans hrx (le_of_lt (better_lt bcF r0 x hc.2))
    · have hstep := selStep_neg bcF NF bs acc x hc
      rw [hstep] at hacc
      refine ⟨?_, fun r0 h0 => hacc r0 h0⟩
      intro sp hsp hcand
      rcases List.mem_cons.mp hsp with hsp | hsp
      · subst hsp
        rw [Bool.and_eq_true, not_and_or] at hc
        rcases hc with hc | hc
        · exact absurd hcand hc
        · cases hb : acc with
          | none =>
            rw [hb] at hc
            exact absurd (isBetterB_none bcF sp) hc
          | some b =>
            rw [hb] at hc
            exact le_trans (hacc b hb) (notBetter_le bcF b sp hc)
      · exact hxs sp hsp hcand

theorem selFold_first (bcF NF : ℕ → ℕ → ℕ) (bs : ℕ) :
    ∀ (l : List (ℕ × ℕ)) (acc : Option FermatRingD) (r : FermatRingD),
      l.foldl (selStep bcF NF bs) acc = some r →
      acc = some r ∨
      ∃ l1 sp l2, l = l1 ++ sp :: l2 ∧ r = ⟨sp.1, sp.2 - 1⟩ ∧
        candOK bcF NF bs sp.1 sp.2 = true ∧
        (∀ sq ∈ l1, candOK bcF NF bs sq.1 sq.2 = true → bcF r.s r.p < bcF sq.1 (sq.2 - 1)) ∧
        (∀ r0 : FermatRingD, acc = some r0 → bcF r.s r.p < bcF r0.s r0.p) := by
  intro l
  induction l with
  | nil =>
    intro acc r h
    simp only [List.foldl_nil] at h
    exact Or.inl h
  | cons x xs ih =>
    intro acc r h
    rw [List.foldl_cons] at h
    rcases ih _ r h with hstep | ⟨l1, sp, l2, hsplit, hr, hcand, hpre, haccStep⟩
    · by_cases hc : (candOK bcF NF bs x.1 x.2 && isBetterB bcF acc x) = true
      · rw [selStep_pos bcF NF bs acc x hc] at hstep
        have hrx : r = ⟨x.1, x.2 - 1⟩ := by cases hstep; rfl
        rw [Bool.and_eq_true] at hc
        refine Or.inr ⟨[], x, xs, rfl, hrx, hc.1, by simp, ?_⟩
        intro r0 h0
        subst h0
        rw [hrx]
        exact better_lt bcF r0 x hc.2
      · rw [selStep_neg bcF NF bs acc x hc] at hstep
        exact Or.inl hstep
    · refine Or.inr ⟨x :: l1, sp, l2, by rw [hsplit]; rfl, hr, hcand, ?_, ?_⟩
      · intro sq hsq hq
        rcases List.mem_cons.mp hsq with hsq | hsq
        · subst hsq
          by_cases hc : (candOK bcF NF bs sq.1 sq.2 && isBetterB bcF acc sq) = true
          · exact haccStep _ (selStep_pos bcF NF bs acc sq hc)
          · have hstep := selStep_neg bcF NF bs acc sq hc
            rw [Bool.and_eq_true, not_and_or] at hc
            rcases hc with hc | hc
            · exact absurd hq hc
            · cases hb : acc with
              | none =>
                rw [hb] at hc
                exact absurd (isBetterB_none bcF sq) hc
              | some b =>
                rw [hb] at hc hstep
                exact lt_of_lt_of_le (haccStep b (by rw [hb]; exact hstep))
                  (notBetter_le bcF b sq hc)
        · exact hpre sq hsq hq
      · intro r0 h0
        by_cases hc : (candOK bcF NF bs x.1 x.2 && isBetterB bcF acc x) = true
        · have h1 : bcF r.s r.p < bcF x.1 (x.2 - 1) :=
            haccStep _ (selStep_pos bcF NF bs acc x hc)
          rw [Bool.and_eq_true] at hc
          have hbet := hc.2
          rw [h0] at hbet
          exact lt_trans h1 (better_lt bcF r0 x hbet)
        · have hstep := selStep_neg bcF NF bs acc x hc
          rw [hstep] at haccStep
          exact haccStep r0 h0

theorem rbind_eq_ok {α β : Type} (r : Res α) (g : α → Res β) (v : β)
    (h : rbind r g = some (Except.ok v)) :
    ∃ a, r = some (Except.ok a) ∧ g a = some (Except.ok v) := by
  cases r with
  | none => exact Option.noConfusion h
  | some e =>
    cases e with
    | error e => exact Except.noConfusion (Option.some.inj h)
    | ok a => exact ⟨a, rfl, h⟩

theorem rbind_ne_none {α β : Type} (r : Res α) (g : α → Res β)
    (h1 : r ≠ none) (h2 : ∀ a, g a ≠ none) : rbind r g ≠ none := by
  cases r with
  | none => exact absurd rfl h1
  | some e =>
    cases e with
    | error e => simp [rbind]
    | ok a => exact h2 a

theorem rmap_ne_none {α β : Type} (f : α → β) (r : Res α) (h : r ≠ none) :
    rmap f r ≠ none := by
  cases r with
  | none => exact absurd rfl h
  | some e => cases e <;> simp [rmap]

theorem zipWithRes_ne_none (f : ℤ → ℤ → Res ℤ) (hf : ∀ x y, f x y ≠ none) :
    ∀ (l1 l2 : List ℤ), zipWithRes f l1 l2 ≠ none := by
  intro l1
  induction l1 with
  | nil => intro l2; simp [zipWithRes]
  | cons x xs ih =>
    intro l2
    cases l2 with
    | nil => simp [zipWithRes]
    | cons y ys =>
      exact rbind_ne_none _ _ (hf x y) (fun z => rmap_ne_none _ _ (ih ys))

theorem mulRing_succ (env : Env) (fuel : ℕ) (a0 b0 : ℤ) (ring : FermatRingD) :
    multiply_integer_SchonhageStrassen_ring env (fuel + 1) a0 b0 ring =
      (if (env.bcF ring.s ring.p ≠ 16 ∧ env.bcF ring.s ring.p < 32) ∨ env.bcF ring.s ring.p = 40 then
        some (Except.ok (env.canonicalizeF ring.s ring.p
          (env.karatsubaF (env.canonicalizeF ring.s ring.p a0)
            (env.canonicalizeF ring.s ring.p b0))))
      else if env.isNegativeOneF (env.canonicalizeF ring.s ring.p a0) then
        some (Except.ok (env.canonicalizeF ring.s ring.p
          (-(env.canonicalizeF ring.s ring.p b0))))
      else if env.isNegativeOneF (env.canonicalizeF ring.s ring.p b0) then
        some (Except.ok (env.canonicalizeF ring.s ring.p
          (-(env.canonicalizeF ring.s ring.p a0))))
      else
        match ring_for_size env.bcF env.NF (env.bcF ring.s ring.p) with
        | Except.error n => some (Except.error n)
        | Except.ok inner_ring =>
          rbind (negacyclic_convolution env inner_ring.s inner_ring.p
              (env.splitF (env.canonicalizeF ring.s ring.p a0)
                (env.NF inner_ring.s inner_ring.p)
                (env.bcF ring.s ring.p >>> (env.EF inner_ring.s inner_ring.p + 1)))
              (env.splitF (env.canonicalizeF ring.s ring.p b0)
                (env.NF inner_ring.s inner_ring.p)
                (env.bcF ring.s ring.p >>> (env.EF inner_ring.s inner_ring.p + 1)))
              (fun x y => multiply_integer_SchonhageStrassen_ring env fuel x y inner_ring))
            (fun piecesC =>
              some (Except.ok (env.canonicalizeF ring.s ring.p
                (env.shiftSumF (piecesC.map (fun e =>
                    if env.sizeF e = env.bcF inner_ring.s inner_ring.p then
                      e - env.divisorF inner_ring.s inner_ring.p
                    else e))
                  (env.bcF ring.s ring.p >>> (env.EF inner_ring.s inner_ring.p + 1))))))) := rfl

theorem ring_for_size_ok_cases (bcF NF : ℕ → ℕ → ℕ) (bs : ℕ) (r : FermatRingD)
    (h : ring_for_size bcF NF bs = Except.ok r) :
    ∃ l1 sp l2, sweep (ceil_lg2 bs) = l1 ++ sp :: l2 ∧ r = ⟨sp.1, sp.2 - 1⟩ ∧
      candOK bcF NF bs sp.1 sp.2 = true ∧
      (∀ sq ∈ l1, candOK bcF NF bs sq.1 sq.2 = true → bcF r.s r.p < bcF sq.1 (sq.2 - 1)) := by
  unfold ring_for_size at h
  cases hfold : (sweep (ceil_lg2 bs)).foldl (selStep bcF NF bs) none with
  | none => rw [hfold] at h; exact absurd h (by simp)
  | some r2 =>
    rw [hfold] at h
    have hr : r2 = r := by cases h; rfl
    subst hr
    rcases selFold_first bcF NF bs _ none r2 hfold with hl | ⟨l1, sp, l2, hsplit, hrr, hcand, hpre, _⟩
    · exact absurd hl (by simp)
    · exact ⟨l1, sp, l2, hsplit, hrr, hcand, hpre⟩

theorem ring_for_size_ok_lt (bcF NF : ℕ → ℕ → ℕ) (bs : ℕ) (r : FermatRingD)
    (h : ring_for_size bcF NF bs = Except.ok r) : bcF r.s r.p < bs := by
  obtain ⟨l1, sp, l2, hsplit, hrr, hcand, _⟩ := ring_for_size_ok_cases bcF NF bs r h
  unfold candOK at hcand
  simp only [Bool.and_eq_true, decide_eq_true_eq] at hcand
  rw [hrr]
  exact hcand.1.1.1

/-- C3: whenever `ring_for_size bit_size` returns a ring `r`, (a) the sweep
ranges are exactly `s` from `ceil_lg2 bit_size` down to `1` and `p` from
`max 2 s` to `4*s`; (b) `r` comes from a swept candidate `(s, p)` as
`FermatRing(s, p-1)` satisfying all four structural predicates (isSmaller,
the divisibility form of isEven, hasRoom, canDoSqrt2); (c) `r` has minimal
bit capacity among all swept candidates satisfying the four predicates; and
(d) ties keep the first candidate found in iteration order: every valid
candidate swept strictly before the returned one has strictly larger bit
capacity.  Parametric in the `FermatRing` attribute functions `bcF`, `NF`. -/
theorem ring_for_size_valid_and_minimal (bcF NF : ℕ → ℕ → ℕ) (bs : ℕ) (r : FermatRingD)
    (h0 : 0 < bs) (h29 : bs ≤ 2 ^ 29)
    (h : ring_for_size bcF NF bs = Except.ok r) :
    (∀ s p : ℕ, ((s, p) ∈ sweep (ceil_lg2 bs)) ↔
      (1 ≤ s ∧ s ≤ ceil_lg2 bs ∧ max 2 s ≤ p ∧ p ≤ 4 * s)) ∧
    (∃ s p : ℕ, (s, p) ∈ sweep (ceil_lg2 bs) ∧ r = ⟨s, p - 1⟩ ∧ ValidCand bcF NF bs s p) ∧
    (∀ s p : ℕ, (s, p) ∈ sweep (ceil_lg2 bs) → ValidCand bcF NF bs s p →
      bcF r.s r.p ≤ bcF s (p - 1)) ∧
    (∃ l1 sp l2, sweep (ceil_lg2 bs) = l1 ++ sp :: l2 ∧ r = ⟨sp.1, sp.2 - 1⟩ ∧
      ∀ sq ∈ l1, ValidCand bcF NF bs sq.1 sq.2 → bcF r.s r.p < bcF sq.1 (sq.2 - 1)) := by
  have h32 : bs < 2 ^ 32 := lt_of_le_of_lt h29 (by norm_num)
  have hm : ceil_lg2 bs ≤ 29 := ceil_lg2_le bs 29 h29
  have hequiv : ∀ s p : ℕ, (s, p) ∈ sweep (ceil_lg2 bs) →
      (candOK bcF NF bs s p = true ↔ ValidCand bcF NF bs s p) := by
    intro s p hmem
    have hs := (mem_sweep (ceil_lg2 bs) s p).mp hmem
    exact candOK_iff_valid bcF NF bs s p h32 (by omega)
  obtain ⟨l1, sp, l2, hsplit, hrr, hcand, hpre⟩ := ring_for_size_ok_cases bcF NF bs r h
  have hmemsp : (sp.1, sp.2) ∈ sweep (ceil_lg2 bs) := by
    rw [hsplit]
    simp
  have hfold : (sweep (ceil_lg2 bs)).foldl (selStep bcF NF bs) none = some r := by
    unfold ring_for_size at h
    cases hfold : (sweep (ceil_lg2 bs)).foldl (selStep bcF NF bs) none with
    | none => rw [hfold] at h; exact absurd h (by simp)
    | some r2 => rw [hfold] at h; cases h; rfl
  have hmin := (selFold_min bcF NF bs _ none r hfold).1
  refine ⟨fun s p => mem_sweep (ceil_lg2 bs) s p, ?_, ?_, ?_⟩
  · exact ⟨sp.1, sp.2, hmemsp, hrr, (hequiv sp.1 sp.2 hmemsp).mp hcand⟩
  · intro s p hmem hvalid
    exact hmin (s, p) hmem ((hequiv s p hmem).mpr hvalid)
  · refine ⟨l1, sp, l2, hsplit, hrr, ?_⟩
    intro sq hsq hvalid
    have hmemq : (sq.1, sq.2) ∈ sweep (ceil_lg2 bs) := by
      rw [hsplit]
      simp only [List.mem_append]
      exact Or.inl hsq
    exact hpre sq hsq ((hequiv sq.1 sq.2 hmemq).mpr hvalid)

theorem ring_for_size_valid_and_minimal_witness :
    bcW 3 2 ≤ bcW 2 5 :=
  (ring_for_size_valid_and_minimal bcW principal_root_order_spec 64 ⟨3, 2⟩
    (by norm_num) (by norm_num) rfl).2.2.1 2 6 (by decide) (by unfold ValidCand; decide)

/-- C7: in the split step of the engine, splitting is exact: with the
inner ring obtained from `ring_for_size ring.bit_capacity`, the piece count
`inner_ring.principal_root_order` times the piece width
`ring.bit_capacity >>> (inner_ring.principal_root_exponent + 1)` equals
`ring.bit_capacity` exactly, for any bit-capacity function `bcF` and the
spec-modelled root order and exponent attributes. -/
theorem split_is_exact (bcF : ℕ → ℕ → ℕ) (bs : ℕ) (r : FermatRingD)
    (h0 : 0 < bs) (h29 : bs ≤ 2 ^ 29)
    (h : ring_for_size bcF principal_root_order_spec bs = Except.ok r) :
    principal_root_order_spec r.s r.p *
      (bs >>> (principal_root_exponent_spec r.s r.p + 1)) = bs := by
  have h32 : bs < 2 ^ 32 := lt_of_le_of_lt h29 (by norm_num)
  have hm : ceil_lg2 bs ≤ 29 := ceil_lg2_le bs 29 h29
  obtain ⟨l1, sp, l2, hsplit, hrr, hcand, _⟩ :=
    ring_for_size_ok_cases bcF principal_root_order_spec bs r h
  have hmemsp : (sp.1, sp.2) ∈ sweep (ceil_lg2 bs) := by
    rw [hsplit]
    simp
  have hs := (mem_sweep (ceil_lg2 bs) sp.1 sp.2).mp hmemsp
  have hvalid := (candOK_iff_valid bcF principal_root_order_spec bs sp.1 sp.2 h32
    (by omega)).mp hcand
  have hdvd2 : 2 ^ (sp.1 + 2) ∣ bs := hvalid.2.1
  have hdvd : 2 ^ (sp.1 + 1) ∣ bs := dvd_trans (pow_dvd_pow 2 (by omega)) hdvd2
  rw [hrr]
  unfold principal_root_order_spec principal_root_exponent_spec
  rw [Nat.shiftRight_eq_div_pow]
  exact Nat.mul_div_cancel' hdvd

theorem split_is_exact_witness :
    principal_root_order_spec 3 2 * (64 >>> (principal_root_exponent_spec 3 2 + 1)) = 64 :=
  split_is_exact bcW 64 ⟨3, 2⟩ (by norm_num) (by norm_num) rfl

/-- C8: the ring selector's square-root-of-2 eligibility check passes iff
`s ≥ 3`, or `s = 2` and the parity condition `(p & 0) === 0` holds; and for
`s = 2` that parity predicate is true for every `p`, so the check passes
for every `p` whenever `s = 2`. -/
theorem canDoSqrt2_characterization (s p : ℕ) :
    (canDoSqrt2 s p = true ↔ (3 ≤ s ∨ (s = 2 ∧ p &&& 0 = 0))) ∧
    p &&& 0 = 0 ∧ canDoSqrt2 2 p = true := by
  refine ⟨?_, Nat.and_zero p, ?_⟩
  · unfold canDoSqrt2
    simp only [Bool.or_eq_true, Bool.and_eq_true, decide_eq_true_eq]
  · unfold canDoSqrt2
    simp [Nat.and_zero]

/-- C10: the evenness gate computes `(bit_size & ((1 << (s+2)) - 1)) == 0`
with JavaScript 32-bit semantics, and for `0 < bit_size < 2^31` and
`s + 2 ≤ 30` it succeeds exactly when `2 ^ (s+2)` divides `bit_size`. -/
theorem evenness_test_matches_divisibility (bs s : ℕ) (h0 : 0 < bs) (h1 : bs < 2 ^ 31)
    (h2 : s + 2 ≤ 30) : jsEven bs s = true ↔ 2 ^ (s + 2) ∣ bs :=
  jsEven_iff bs s (lt_trans h1 (by norm_num)) (by omega)

theorem evenness_test_matches_divisibility_witness :
    jsEven 48 2 = true ↔ 2 ^ (2 + 2) ∣ 48 :=
  evenness_test_matches_divisibility 48 2 (by norm_num) (by norm_num) (by norm_num)

/-- C4: `ring_for_size` raises `NoSuitableRing` carrying the requested bit
size iff no candidate of the full `(s, p)` sweep satisfies the four
structural predicates; every error it raises carries exactly the requested
bit size; the engine neither catches nor retries a selector error but
returns it unchanged; and the entry normalizer passes an engine error to
its caller unchanged (negation of the result never runs on error). -/
theorem noSuitableRing_iff_and_propagates :
    (∀ (bcF NF : ℕ → ℕ → ℕ) (bs e : ℕ), ring_for_size bcF NF bs = Except.error e → e = bs) ∧
    (∀ (bcF NF : ℕ → ℕ → ℕ) (bs : ℕ), 0 < bs → bs ≤ 2 ^ 29 →
      (ring_for_size bcF NF bs = Except.error bs ↔
        ∀ s p : ℕ, (s, p) ∈ sweep (ceil_lg2 bs) → ¬ ValidCand bcF NF bs s p)) ∧
    (∀ (env : Env) (fuel : ℕ) (a0 b0 : ℤ) (ring : FermatRingD) (n : ℕ),
      ¬ ((env.bcF ring.s ring.p ≠ 16 ∧ env.bcF ring.s ring.p < 32) ∨
          env.bcF ring.s ring.p = 40) →
      env.isNegativeOneF (env.canonicalizeF ring.s ring.p a0) = false →
      env.isNegativeOneF (env.canonicalizeF ring.s ring.p b0) = false →
      ring_for_size env.bcF env.NF (env.bcF ring.s ring.p) = Except.error n →
      multiply_integer_SchonhageStrassen_ring env (fuel + 1) a0 b0 ring =
        some (Except.error n)) ∧
    (∀ (env : Env) (fuel : ℕ) (a b : ℤ) (n : ℕ),
      multiply_integer_SchonhageStrassen_nonneg env fuel |a| |b| = some (Except.error n) →
      multiply_integer_SchonhageStrassen env fuel a b = some (Except.error n)) := by
  refine ⟨?_, ?_, ?_, ?_⟩
  · intro bcF NF bs e h
    unfold ring_for_size at h
    cases hfold : (sweep (ceil_lg2 bs)).foldl (selStep bcF NF bs) none with
    | none => rw [hfold] at h; cases h; rfl
    | some r2 => rw [hfold] at h; exact absurd h (by simp)
  · intro bcF NF bs h0 h29
    have h32 : bs < 2 ^ 32 := lt_of_le_of_lt h29 (by norm_num)
    have hm : ceil_lg2 bs ≤ 29 := ceil_lg2_le bs 29 h29
    have hequiv : ∀ s p : ℕ, (s, p) ∈ sweep (ceil_lg2 bs) →
        (candOK bcF NF bs s p = true ↔ ValidCand bcF NF bs s p) := by
      intro s p hmem
      have hs := (mem_sweep (ceil_lg2 bs) s p).mp hmem
      exact candOK_iff_valid bcF NF bs s p h32 (by omega)
    constructor
    · intro h s p hmem hvalid
      unfold ring_for_size at h
      cases hfold : (sweep (ceil_lg2 bs)).foldl (selStep bcF NF bs) none with
      | some r2 => rw [hfold] at h; exact absurd h (by simp)
      | none =>
        have hall := (selFold_none bcF NF bs _ none hfold).2
        have hfalse := hall (s, p) hmem
        rw [(hequiv s p hmem).mpr hvalid] at hfalse
        exact Bool.noConfusion hfalse
    · intro hall
      unfold ring_for_size
      have hfalse : ∀ sp ∈ sweep (ceil_lg2 bs), candOK bcF NF bs sp.1 sp.2 = false := by
        intro sp hsp
        have hmem : (sp.1, sp.2) ∈ sweep (ceil_lg2 bs) := by
          cases sp; exact hsp
        cases hc : candOK bcF NF bs sp.1 sp.2 with
        | false => rfl
        | true => exact absurd ((hequiv sp.1 sp.2 hmem).mp hc) (hall sp.1 sp.2 hmem)
      rw [selFold_id bcF NF bs _ none hfalse]
  · intro env fuel a0 b0 ring n hbase hA hB herr
    rw [mulRing_succ, if_neg hbase, hA, hB, herr]
    simp
  · intro env fuel a b n h
    unfold multiply_integer_SchonhageStrassen multiply_integer_SchonhageStrassen_posA
    by_cases ha : a < 0
    · rw [if_pos ha]
      have habs : |a| = -a := abs_of_neg ha
      by_cases hb : b < 0
      · rw [if_pos hb]
        have hbabs : |b| = -b := abs_of_neg hb
        rw [habs, hbabs] at h
        rw [h]
        rfl
      · rw [if_neg hb]
        have hbabs : |b| = b := abs_of_nonneg (le_of_not_lt hb)
        rw [habs, hbabs] at h
        rw [h]
        rfl
    · rw [if_neg ha]
      have habs : |a| = a := abs_of_nonneg (le_of_not_lt ha)
      by_cases hb : b < 0
      · rw [if_pos hb]
        have hbabs : |b| = -b := abs_of_neg hb
        rw [habs, hbabs] at h
        rw [h]
        rfl
      · rw [if_neg hb]
        have hbabs : |b| = b := abs_of_nonneg (le_of_not_lt hb)
        rw [habs, hbabs] at h
        exact h

theorem noSuitableRing_iff_and_propagates_witness :
    (33 = 33) ∧ (¬ ValidCand envW33.bcF envW33.NF 33 2 2) ∧
    multiply_integer_SchonhageStrassen_ring envW33 1 0 0 ⟨0, 0⟩ = some (Except.error 33) ∧
    multiply_integer_SchonhageStrassen envW33 1 (-2) 3 = some (Except.error 33) := by
  refine ⟨?_, ?_, ?_, ?_⟩
  · exact noSuitableRing_iff_and_propagates.1 envW33.bcF envW33.NF 33 33 rfl
  · exact (noSuitableRing_iff_and_propagates.2.1 envW33.bcF envW33.NF 33
      (by norm_num) (by norm_num)).mp rfl 2 2 (by decide)
  · exact noSuitableRing_iff_and_propagates.2.2.1 envW33 0 0 0 ⟨0, 0⟩ 33
      (by decide) rfl rfl rfl
  · exact noSuitableRing_iff_and_propagates.2.2.2 envW33 1 (-2) 3 33 (by rfl)

/-- C5: every inner ring handed to a recursive self-call of the engine is
strictly smaller — `ring_for_size` only ever returns a ring whose bit
capacity is below the requested bit size (the isSmaller gate) — and
consequently the embedded recursion terminates: with fuel exceeding the
current ring's bit capacity the engine never exhausts its fuel, on any
collaborator environment. -/
theorem recursion_strictly_shrinks_and_terminates :
    (∀ (bcF NF : ℕ → ℕ → ℕ) (bs : ℕ) (r : FermatRingD),
      ring_for_size bcF NF bs = Except.ok r → bcF r.s r.p < bs) ∧
    (∀ (env : Env) (fuel : ℕ) (a b : ℤ) (ring : FermatRingD),
      env.bcF ring.s ring.p < fuel →
      multiply_integer_SchonhageStrassen_ring env fuel a b ring ≠ none) := by
  refine ⟨ring_for_size_ok_lt, ?_⟩
  intro env fuel
  induction fuel with
  | zero => intro a b ring h; omega
  | succ f ih =>
    intro a b ring hlt
    rw [mulRing_succ]
    by_cases hbase : (env.bcF ring.s ring.p ≠ 16 ∧ env.bcF ring.s ring.p < 32) ∨
        env.bcF ring.s ring.p = 40
    · rw [if_pos hbase]; simp
    · rw [if_neg hbase]
      cases hA : env.isNegativeOneF (env.canonicalizeF ring.s ring.p a) with
      | true => simp
      | false =>
        cases hB : env.isNegativeOneF (env.canonicalizeF ring.s ring.p b) with
        | true => simp
        | false =>
          simp only [Bool.false_eq_true, if_false]
          cases herr : ring_for_size env.bcF env.NF (env.bcF ring.s ring.p) with
          | error n => simp
          | ok inner_ring =>
            have hinner : env.bcF inner_ring.s inner_ring.p < f := by
              have := ring_for_size_ok_lt env.bcF env.NF (env.bcF ring.s ring.p)
                inner_ring herr
              omega
            refine rbind_ne_none _ _ ?_ (fun pc => by simp)
            unfold negacyclic_convolution
            refine rmap_ne_none _ _ ?_
            exact zipWithRes_ne_none _ (fun x y => ih x y inner_ring hinner) _ _

theorem recursion_strictly_shrinks_and_terminates_witness :
    bcW 3 2 < 64 ∧ multiply_integer_SchonhageStrassen_ring envW 9 2 3 ⟨3, 0⟩ ≠ none :=
  ⟨recursion_strictly_shrinks_and_terminates.1 bcW principal_root_order_spec 64 ⟨3, 2⟩ rfl,
    recursion_strictly_shrinks_and_terminates.2 envW 9 2 3 ⟨3, 0⟩ (by decide)⟩

/-- C6: for nonnegative operands the entry normalizer computes
`n = max(a.size(), b.size()) * 2` and delegates to the recursive engine
with the ring `FermatRing(ceil_lg2 n, 1)`, i.e. a ring whose (spec-modelled)
bit capacity is `ceil_lg2 n` and whose root-order parameter is `1`. -/
theorem entry_normalizer_ring_choice (env : Env) (fuel : ℕ) (a b : ℤ)
    (ha : 0 ≤ a) (hb : 0 ≤ b) :
    multiply_integer_SchonhageStrassen env fuel a b =
      multiply_integer_SchonhageStrassen_ring env fuel a b
        ⟨ceil_lg2 (max (env.sizeF a) (env.sizeF b) * 2), 1⟩ ∧
    entry_ring_bit_capacity (ceil_lg2 (max (env.sizeF a) (env.sizeF b) * 2)) 1 =
      ceil_lg2 (max (env.sizeF a) (env.sizeF b) * 2) := by
  refine ⟨?_, rfl⟩
  unfold multiply_integer_SchonhageStrassen multiply_integer_SchonhageStrassen_posA
    multiply_integer_SchonhageStrassen_nonneg
  rw [if_neg (not_lt.mpr ha), if_neg (not_lt.mpr hb)]

theorem entry_normalizer_ring_choice_witness :
    multiply_integer_SchonhageStrassen envW 1 3 3 =
      multiply_integer_SchonhageStrassen_ring envW 1 3 3
        ⟨ceil_lg2 (max (envW.sizeF 3) (envW.sizeF 3) * 2), 1⟩ ∧
    entry_ring_bit_capacity (ceil_lg2 (max (envW.sizeF 3) (envW.sizeF 3) * 2)) 1 =
      ceil_lg2 (max (envW.sizeF 3) (envW.sizeF 3) * 2) :=
  entry_normalizer_ring_choice envW 1 3 3 (by norm_num) (by norm_num)

/-- C9: assuming the collaborator's canonicalization is idempotent, every
value the engine returns is a fixed point of `ring.canonicalize`: each
return path (base case, the two minus-one special cases, and the
recombination path) passes its result through `ring.canonicalize` before
returning. -/
theorem results_are_canonical_fixed_points (env : Env) (fuel : ℕ) (a b : ℤ)
    (ring : FermatRingD) (v : ℤ)
    (hid : ∀ (s p : ℕ) (x : ℤ),
      env.canonicalizeF s p (env.canonicalizeF s p x) = env.canonicalizeF s p x)
    (h : multiply_integer_SchonhageStrassen_ring env fuel a b ring = some (Except.ok v)) :
    env.canonicalizeF ring.s ring.p v = v := by
  cases fuel with
  | zero => exact Option.noConfusion h
  | succ f =>
    rw [mulRing_succ] at h
    by_cases hbase : (env.bcF ring.s ring.p ≠ 16 ∧ env.bcF ring.s ring.p < 32) ∨
        env.bcF ring.s ring.p = 40
    · rw [if_pos hbase] at h
      have hv := Except.ok.inj (Option.some.inj h)
      rw [← hv]
      exact hid _ _ _
    · rw [if_neg hbase] at h
      cases hA : env.isNegativeOneF (env.canonicalizeF ring.s ring.p a) with
      | true =>
        rw [hA, if_pos rfl] at h
        have hv := Except.ok.inj (Option.some.inj h)
        rw [← hv]
        exact hid _ _ _
      | false =>
        rw [hA] at h
        simp only [Bool.false_eq_true, if_false] at h
        cases hB : env.isNegativeOneF (env.canonicalizeF ring.s ring.p b) with
        | true =>
          rw [hB, if_pos rfl] at h
          have hv := Except.ok.inj (Option.some.inj h)
          rw [← hv]
          exact hid _ _ _
        | false =>
          rw [hB] at h
          simp only [Bool.false_eq_true, if_false] at h
          cases herr : ring_for_size env.bcF env.NF (env.bcF ring.s ring.p) with
          | error n =>
            rw [herr] at h
            exact Except.noConfusion (Option.some.inj h)
          | ok inner_ring =>
            rw [herr] at h
            obtain ⟨pc, hpc, hg⟩ := rbind_eq_ok _ _ _ h
            have hv := Except.ok.inj (Option.some.inj hg)
            rw [← hv]
            exact hid _ _ _

theorem results_are_canonical_fixed_points_witness :
    envW.canonicalizeF 3 0 6 = 6 :=
  results_are_canonical_fixed_points envW 1 2 3 ⟨3, 0⟩ 6 (fun _ _ _ => rfl) rfl
